import Mathlib

/-!
Shallow embedding of the fuzzypanda repository (modules
`fuzzypanda/preprocess.py` and `fuzzypanda/fuzzypanda.py`) and proofs
of the specification claims about it.

Strings are modelled as `List Char`.  Python's `str.lower` is modelled
per character over the ASCII letters (the only case mapping exercised by
the code's data); Python's whitespace set for `str.split()` / `str.strip()`
is modelled by the six ASCII whitespace characters.  The SymSpell engine
is an external collaborator and is modelled as an opaque lookup oracle,
exactly as the spec treats it.
-/

namespace Fuzzypanda

/-- Raw and canonical strings are lists of characters. -/
abbrev Str := List Char

/-- ASCII whitespace, as recognised by Python's `str.split()` and
`str.strip()`: space, tab, newline, vertical tab, form feed, carriage
return. -/
def isPySpace (c : Char) : Bool :=
  c = ' ' || c = '\t' || c = '\n' || c = '\x0b' || c = '\x0c' || c = '\r'

/-- Per-character model of Python's `str.lower`: an ASCII uppercase
letter is shifted to its lowercase form, any other character is kept. -/
def lowerChar (c : Char) : Char :=
  if 65 ≤ c.toNat ∧ c.toNat ≤ 90 then Char.ofNat (c.toNat + 32) else c

/-- Step 1 of `PreProcessor.preprocess`: `t = s.lower()`. -/
def pyLower (s : Str) : Str := s.map lowerChar

/-- The default `PreProcessor.screened_chars` attribute, in source order. -/
def screenedChars : Str :=
  ['!', '@', '#', '$', '%', '^', '&', '*', '(', ')', '-', '_', '=', '+',
   '\x7b', '\x7d', '[', ']', ':', ';', '\x27', '\x22', '/', '|', '\\',
   '?', '>', '<', '.', ',', '~', '\x60']

/-- The replacement text for the ampersand: `' and '`. -/
def andStr : Str := [' ', 'a', 'n', 'd', ' ']

/-- Python's `t.replace(c, r)` for a single-character pattern `c`. -/
def replaceChar (c : Char) (r : Str) (s : Str) : Str :=
  s.flatMap (fun x => if x = c then r else [x])

/-- One iteration of the screening loop in `PreProcessor.preprocess`:
`'&'` is replaced by `' and '`, every other screened character by `''`. -/
def screenStep (t : Str) (c : Char) : Str :=
  if c = '&' then replaceChar c andStr t else replaceChar c [] t

/-- Step 2 of `PreProcessor.preprocess`: the loop
`for c in self.screened_chars: ...` over the default screened set. -/
def screenAll (s : Str) : Str := screenedChars.foldl screenStep s

/-- Python's `t.split()`: split on runs of whitespace, dropping empty
tokens.  Written with one character of lookahead so that the recursion
is structural; `splitWs_cons_not_ws` below recovers the usual
"take the maximal non-whitespace run" description. -/
def splitWs : Str → List Str
  | [] => []
  | c :: cs =>
    if isPySpace c then splitWs cs
    else
      match cs with
      | [] => [[c]]
      | d :: _ =>
        if isPySpace d then [c] :: splitWs cs
        else
          match splitWs cs with
          | [] => [[c]]
          | t :: ts => (c :: t) :: ts

/-- Python's `tl.sort()` on a list of strings: sorting by the
lexicographic order on code points.  Any correct sort produces the same
output on a linearly ordered element type. -/
def sortTokens (l : List Str) : List Str :=
  List.insertionSort (· ≤ ·) l

/-- `PreProcessor.preprocess`: lowercase, screen characters, split on
whitespace, sort the tokens and concatenate them with no separator. -/
def preprocess (s : Str) : Str :=
  (sortTokens (splitWs (screenAll (pyLower s)))).flatten

/-- Python's `line.strip()`: remove leading and trailing whitespace. -/
def pyStrip (s : Str) : Str :=
  ((s.dropWhile isPySpace).reverse.dropWhile isPySpace).reverse

/-! ## The `Fuzzy` class: reverse index and query -/

/-- One SymSpell suggestion: `suggest[0].term` and `suggest[0].distance`.
With `include_unknown=True` the engine always returns at least one
suggestion, so the top suggestion is modelled as total. -/
structure Suggestion where
  term : Str
  distance : Nat
deriving DecidableEq

/-- Python `d[k]` read on the index dictionary, returning `none` where
Python would raise `KeyError`.  Keys are inserted at most once per key,
so first-match lookup agrees with Python's dict. -/
def dictGet (d : List (Str × Str)) (k : Str) : Option Str :=
  (d.find? (fun p => p.1 == k)).map Prod.snd

/-- Python `d.update({k: v})`: overwrite the value if the key is
present (keeping insertion order), append otherwise. -/
def dictInsert (d : List (Str × Str)) (k v : Str) : List (Str × Str) :=
  if (d.find? (fun p => p.1 == k)).isSome then
    d.map (fun p => if p.1 == k then (k, v) else p)
  else d ++ [(k, v)]

/-- One iteration of the loop in `Fuzzy.create_index`: strip the line,
preprocess it, and either record a conflict (keeping the first-seen
mapping and counting one warning) or insert the entry. -/
def createIndexStep (acc : List (Str × Str) × Nat) (line : Str) :
    List (Str × Str) × Nat :=
  let original := pyStrip line
  let processed := preprocess original
  match dictGet acc.1 processed with
  | some conflict =>
    if conflict ≠ original then (acc.1, acc.2 + 1)
    else (dictInsert acc.1 processed original, acc.2)
  | none => (dictInsert acc.1 processed original, acc.2)

/-- `Fuzzy.create_index`: fold over the unprocessed corpus lines,
returning the index dictionary together with the number of conflict
warnings emitted via `logger.warning`. -/
def create_index (lines : List Str) : List (Str × Str) × Nat :=
  lines.foldl createIndexStep ([], 0)

/-- The state of a `Fuzzy` object after `__init__` has preprocessed the
corpus, built the SymSpell dictionary and the reverse index.  The
SymSpell engine is opaque: `lookupFn` models
`sym_spell.lookup(·, Verbosity.TOP, include_unknown=True)[0]`. -/
structure FuzzyState where
  lookupFn : Str → Suggestion
  index_dictionary : List (Str × Str)
  max_edit_distance_dictionary : Int

/-- Split a string on `'\n'`, keeping empty segments: the newline-free
segments a value contributes to the corpus file.  Always nonempty. -/
def splitNewlines : Str → List Str
  | [] => [[]]
  | c :: cs =>
    if c = '\n' then [] :: splitNewlines cs
    else
      match splitNewlines cs with
      | [] => [[c]]
      | t :: ts => (c :: t) :: ts

/-- The lines of the staged corpus file.  `get_fuzzy_columns` writes
`str(row) + '\n'` for every right-column value, and `Fuzzy` reads the
file back line by line; a value containing embedded newlines is
therefore split into several corpus lines.  Each line is returned
without its `'\n'` terminator (the terminator only ever feeds
whitespace-insensitive `preprocess` and `strip`). -/
def corpusLines (values : List Str) : List Str :=
  values.flatMap splitNewlines

/-- Construction of a `Fuzzy` object from the corpus file written by
`get_fuzzy_columns`: the SymSpell dictionary is built from the
preprocessed corpus lines (modelled by handing them to an opaque
oracle) and the reverse index from the unprocessed corpus lines. -/
def mkFuzzy (oracle : List Str → Str → Suggestion) (values : List Str)
    (maxEdit : Int) : FuzzyState :=
  { lookupFn := oracle ((corpusLines values).map preprocess)
  , index_dictionary := (create_index (corpusLines values)).1
  , max_edit_distance_dictionary := maxEdit }

/-- `Fuzzy.query`: preprocess the query string, take the top SymSpell
suggestion, reject it when its distance exceeds the threshold (returning
the original query string with `False`), otherwise back-map the term
through the index dictionary and return it with `True`.  `none` models
the `KeyError` Python would raise if the term were missing from the
index dictionary. -/
def query (st : FuzzyState) (qstring : Str) : Option (Str × Bool) :=
  let processed := preprocess qstring
  let sugg := st.lookupFn processed
  if st.max_edit_distance_dictionary < (sugg.distance : Int) then
    some (qstring, false)
  else
    match dictGet st.index_dictionary sugg.term with
    | some backprocessed => some (backprocessed, true)
    | none => none

/-- The inner `apply_query` function of `Fuzzy.get_fuzzy_column`: on a
hit return the match, on a miss return the original value unless a
`null_return` sentinel is configured. -/
def apply_query (st : FuzzyState) (null_return : Option Str) (value : Str) :
    Option Str :=
  match query st value with
  | none => none
  | some (out, found) =>
    if found then some out
    else
      match null_return with
      | none => some out
      | some nr => some nr

/-! ## The pipeline driver: `get_fuzzy_columns` -/

/-- A table: named columns of string values, in order. -/
structure DataFrame where
  cols : List (Str × List Str)
deriving DecidableEq

/-- The column names of a table, in order. -/
def DataFrame.columns (df : DataFrame) : List Str := df.cols.map Prod.fst

/-- Column selection `df[name]`, `none` where pandas raises. -/
def DataFrame.getCol (df : DataFrame) (name : Str) : Option (List Str) :=
  (df.cols.find? (fun p => p.1 == name)).map Prod.snd

/-- In-place column assignment `df[name] = vals`: replace an existing
column or append a new one. -/
def DataFrame.setCol (df : DataFrame) (name : Str) (vals : List Str) :
    DataFrame :=
  if (df.cols.find? (fun p => p.1 == name)).isSome then
    ⟨df.cols.map (fun p => if p.1 == name then (name, vals) else p)⟩
  else ⟨df.cols ++ [(name, vals)]⟩

/-- The errors the pipeline can raise, with the data carried by the
corresponding Python exception messages. -/
inductive Err where
  /-- `LookupError(f'\x7bcol\x7d in left_cols not in left_dataframe columns')` -/
  | lookupLeft (col : Str)
  /-- `LookupError(f'\x7bcol\x7d in right_cols not in right_dataframe columns')` -/
  | lookupRight (col : Str)
  /-- The `LookupError` raised by `Fuzzy.get_fuzzy_column`, whose message
  names the column and then lists every column of the dataframe. -/
  | lookupInner (col : Str) (available : List Str)
  /-- `ValueError` for `max_edit_distance < 1`. -/
  | valueMaxEdit
  /-- `IndexError` from `right_cols[i]`. -/
  | indexErr
  /-- `KeyError` from a dict or column access. -/
  | keyErr (k : Str)
deriving DecidableEq

/-- The column name an error message names as missing, if any. -/
def Err.namedCol : Err → Option Str
  | .lookupLeft c => some c
  | .lookupRight c => some c
  | .lookupInner c _ => some c
  | _ => none

/-- The list of available columns an error message reports, if any.
Only the `LookupError` of `Fuzzy.get_fuzzy_column` carries one. -/
def Err.availableCols : Err → Option (List Str)
  | .lookupInner _ av => some av
  | _ => none

/-- Row-by-row `dataframe[col_name].apply(apply_query)`: pandas
evaluates in row order and the first raised error aborts. -/
def mapApplyQuery (st : FuzzyState) (null_return : Option Str) :
    List Str → Except Err (List Str)
  | [] => .ok []
  | v :: vs =>
    match apply_query st null_return v with
    | none => .error (.keyErr ((st.lookupFn (preprocess v)).term))
    | some out =>
      match mapApplyQuery st null_return vs with
      | .error e => .error e
      | .ok outs => .ok (out :: outs)

/-- `Fuzzy.get_fuzzy_column`: check that the column exists (raising a
`LookupError` that lists the available columns if not) and apply the
query to every value. -/
def get_fuzzy_column (st : FuzzyState) (df : DataFrame) (col_name : Str)
    (null_return : Option Str) : Except Err (List Str) :=
  match df.getCol col_name with
  | none => .error (.lookupInner col_name df.columns)
  | some vals => mapApplyQuery st null_return vals

/-- The first loop of `get_fuzzy_columns`: for each left column in
order, fetch the positionally paired right column (`IndexError` when
`right_cols` is exhausted), stage the right column's values as the
corpus, build a `Fuzzy` object from it and compute the fuzzy column. -/
def compute_cols (oracle : List Str → Str → Suggestion)
    (ldf rdf : DataFrame) (null_return : Option Str) (maxEdit : Int) :
    List Str → List Str → Except Err (List (List Str))
  | [], _ => .ok []
  | _ :: _, [] => .error .indexErr
  | lcol :: lcols, rcol :: rcols =>
    match rdf.getCol rcol with
    | none => .error (.keyErr rcol)
    | some corpus =>
      match get_fuzzy_column (mkFuzzy oracle corpus maxEdit) ldf lcol
          null_return with
      | .error e => .error e
      | .ok col =>
        match compute_cols oracle ldf rdf null_return maxEdit lcols rcols with
        | .error e => .error e
        | .ok cols => .ok (col :: cols)

/-- The eager input validation of `get_fuzzy_columns` (lines 421-458):
each left column must be a column of the left dataframe; when
`right_cols` is given, each of its entries must be a column of the right
dataframe; `max_edit_distance` must be at least 1.  The type checks on
`left_cols`, `right_cols` and `null_return` are discharged by typing.
No relation between the lengths of the two column lists is checked. -/
def validate (ldf rdf : DataFrame) (left_cols : List Str)
    (right_cols : Option (List Str)) (maxEdit : Int) : Option Err :=
  match left_cols.find? (fun c => (ldf.getCol c).isNone) with
  | some c => some (.lookupLeft c)
  | none =>
    match right_cols with
    | some rcols =>
      match rcols.find? (fun c => (rdf.getCol c).isNone) with
      | some c => some (.lookupRight c)
      | none => if maxEdit < 1 then some .valueMaxEdit else none
    | none => if maxEdit < 1 then some .valueMaxEdit else none

/-- The second loop of `get_fuzzy_columns`: write each computed column
into the left dataframe under the name `'fuzzy_' + left_col`. -/
def writeCols (ldf : DataFrame) (left_cols : List Str)
    (cols : List (List Str)) : DataFrame :=
  (left_cols.zip cols).foldl
    (fun df p => df.setCol ("fuzzy_".toList ++ p.1) p.2) ldf

/-- `get_fuzzy_columns`: validate the inputs, compute every fuzzy
column, then write all of them into the left dataframe.  The result is
the final state of `left_dataframe` together with the raised error, if
any; every error path leaves the left dataframe untouched because the
write loop runs only after all pairs have been processed. -/
def get_fuzzy_columns (oracle : List Str → Str → Suggestion)
    (ldf rdf : DataFrame) (left_cols : List Str)
    (right_cols : Option (List Str)) (null_return : Option Str)
    (maxEdit : Int) : DataFrame × Option Err :=
  match validate ldf rdf left_cols right_cols maxEdit with
  | some e => (ldf, some e)
  | none =>
    match compute_cols oracle ldf rdf null_return maxEdit left_cols
        (right_cols.getD left_cols) with
    | .error e => (ldf, some e)
    | .ok cols => (writeCols ldf left_cols cols, none)

/-- Sanity check mirroring `test_remove_default_chars` from the
repository's test-suite. -/
theorem preprocess_test_default_chars :
    preprocess ("!@k#$%^i&*()-t_=+t\x7b\x7de[]:;\x27n\x22/|\\?><.,~\x60".toList)
      = "andkitten".toList := by decide

/-- Sanity check mirroring `test_tokenizer` from the test-suite. -/
theorem preprocess_test_tokenizer :
    preprocess ("sitting kitten".toList) = "kittensitting".toList := by decide

/-! ## Lemmas about `splitWs` -/

theorem splitWs_cons_ws (c : Char) (cs : Str) (h : isPySpace c = true) :
    splitWs (c :: cs) = splitWs cs := by
  simp [splitWs, h]

theorem splitWs_cons_not_ws (c : Char) (cs : Str) (h : isPySpace c = false) :
    splitWs (c :: cs) =
      (c :: cs.takeWhile (fun x => !isPySpace x)) ::
        splitWs (cs.dropWhile (fun x => !isPySpace x)) := by
  induction cs generalizing c with
  | nil => simp [splitWs, h]
  | cons d ds ih =>
    by_cases hd : isPySpace d
    · simp [splitWs, h, hd, List.takeWhile_cons, List.dropWhile_cons]
    · have hd' : isPySpace d = false := by simpa using hd
      have ha := ih d hd'
      rw [splitWs]
      rw [if_neg (by simp [h]), if_neg (by simp [hd']), ha]
      simp [List.takeWhile_cons, List.dropWhile_cons, hd', ha]

/-- Every character of every token of `splitWs s` is a non-whitespace
character of `s`. -/
theorem mem_splitWs (n : Nat) : ∀ s : Str, s.length ≤ n →
    ∀ t ∈ splitWs s, ∀ c ∈ t, isPySpace c = false ∧ c ∈ s := by
  induction n with
  | zero =>
    intro s hs
    have : s = [] := List.length_eq_zero.mp (Nat.le_zero.mp hs)
    subst this
    simp [splitWs]
  | succ n ih =>
    intro s hs t ht c hc
    cases s with
    | nil => simp [splitWs] at ht
    | cons a as =>
      by_cases ha : isPySpace a
      · rw [splitWs_cons_ws a as ha] at ht
        have hlen : as.length ≤ n := by
          simpa [Nat.succ_le_succ_iff] using hs
        obtain ⟨h1, h2⟩ := ih as hlen t ht c hc
        exact ⟨h1, List.mem_cons_of_mem a h2⟩
      · have ha' : isPySpace a = false := by simpa using ha
        rw [splitWs_cons_not_ws a as ha'] at ht
        have hlen : as.length ≤ n := by
          simpa [Nat.succ_le_succ_iff] using hs
        rcases List.mem_cons.mp ht with rfl | ht'
        · rcases List.mem_cons.mp hc with rfl | hc'
          · exact ⟨ha', List.mem_cons_self _ _⟩
          · have h1 := List.mem_takeWhile_imp hc'
            have h2 : c ∈ as :=
              (List.takeWhile_sublist (fun x => !isPySpace x)).subset hc'
            exact ⟨by simpa using h1, List.mem_cons_of_mem a h2⟩
        · have hdlen : (as.dropWhile (fun x => !isPySpace x)).length ≤ n :=
            le_trans ((List.dropWhile_sublist _).length_le) hlen
          obtain ⟨h1, h2⟩ := ih _ hdlen t ht' c hc
          exact ⟨h1, List.mem_cons_of_mem a ((List.dropWhile_sublist _).subset h2)⟩

/-- A nonempty whitespace-free string splits into the single token
consisting of itself. -/
theorem splitWs_eq_single (l : Str) (h0 : l ≠ [])
    (h : ∀ c ∈ l, isPySpace c = false) : splitWs l = [l] := by
  match l, h0 with
  | c :: cs, _ =>
    have hc : isPySpace c = false := h c (List.mem_cons_self c cs)
    rw [splitWs_cons_not_ws c cs hc]
    have htake : cs.takeWhile (fun x => !isPySpace x) = cs :=
      List.takeWhile_eq_self_iff.mpr
        (fun x hx => by simp [h x (List.mem_cons_of_mem c hx)])
    have hdrop : cs.dropWhile (fun x => !isPySpace x) = [] :=
      List.dropWhile_eq_nil_iff.mpr
        (fun x hx => by simp [h x (List.mem_cons_of_mem c hx)])
    simp [htake, hdrop, splitWs]

/-- Membership in the preprocessed string comes from membership in a
token of the whitespace split. -/
theorem mem_preprocess (s : Str) (c : Char) (hc : c ∈ preprocess s) :
    isPySpace c = false ∧ c ∈ screenAll (pyLower s) := by
  unfold preprocess at hc
  obtain ⟨t, ht, hct⟩ := List.mem_flatten.mp hc
  have hperm := List.perm_insertionSort
    ((· ≤ ·) : Str → Str → Prop) (splitWs (screenAll (pyLower s)))
  have ht' : t ∈ splitWs (screenAll (pyLower s)) := hperm.mem_iff.mp ht
  exact mem_splitWs (screenAll (pyLower s)).length _ le_rfl t ht' c hct

/-- Claim C6: for every string `s`, `normalize(s)` contains no
whitespace character. -/
theorem claim_C6_whitespace_freedom (s : Str) (c : Char)
    (hc : c ∈ preprocess s) : isPySpace c = false :=
  (mem_preprocess s c hc).1

/-- Witness for C6 at a concrete input: the letter `'a'` occurs in
`normalize(" a b ")` and is certified non-whitespace by the theorem. -/
theorem claim_C6_whitespace_freedom_witness :
    isPySpace 'a' = false :=
  claim_C6_whitespace_freedom (" a b ".toList) 'a' (by decide)

/-! ## Lemmas about screening and lowercasing -/

theorem mem_replaceChar {x c : Char} {r s : Str}
    (h : x ∈ replaceChar c r s) : x ∈ r ∨ (x ∈ s ∧ x ≠ c) := by
  obtain ⟨a, ha, hx⟩ := List.mem_flatMap.mp h
  by_cases hac : a = c
  · rw [if_pos hac] at hx
    exact Or.inl hx
  · rw [if_neg hac] at hx
    have : x = a := by simpa using hx
    subst this
    exact Or.inr ⟨ha, hac⟩

theorem replaceChar_of_not_mem {c : Char} {r s : Str} (h : c ∉ s) :
    replaceChar c r s = s := by
  induction s with
  | nil => rfl
  | cons a as ih =>
    have hac : a ≠ c := fun he => h (he ▸ List.mem_cons_self a as)
    have has : c ∉ as := fun hm => h (List.mem_cons_of_mem a hm)
    simp [replaceChar, List.flatMap_cons, hac] at ih ⊢
    exact ih has

theorem mem_screenStep {x c : Char} {t : Str} (h : x ∈ screenStep t c) :
    x ∈ andStr ∨ (x ∈ t ∧ x ≠ c) := by
  unfold screenStep at h
  by_cases hc : c = '&'
  · rw [if_pos hc] at h
    exact mem_replaceChar h
  · rw [if_neg hc] at h
    rcases mem_replaceChar h with h' | h'
    · simp at h'
    · exact Or.inr h'

theorem mem_foldl_screenStep (L : List Char) :
    ∀ (t : Str) (x : Char), x ∈ L.foldl screenStep t →
      x ∈ t ∨ x ∈ andStr := by
  induction L with
  | nil => intro t x h; exact Or.inl h
  | cons c L ih =>
    intro t x h
    rcases ih (screenStep t c) x h with h' | h'
    · rcases mem_screenStep h' with h'' | h''
      · exact Or.inr h''
      · exact Or.inl h''.1
    · exact Or.inr h'

theorem not_mem_foldl_screenStep (L : List Char) :
    ∀ (t : Str) (x : Char), x ∈ L.foldl screenStep t →
      x ∉ L ∨ x ∈ andStr := by
  induction L with
  | nil => intro t x _; exact Or.inl (List.not_mem_nil x)
  | cons c L ih =>
    intro t x h
    rcases ih (screenStep t c) x h with hL | hAnd
    · rcases mem_foldl_screenStep L (screenStep t c) x h with hstep | hAnd
      · rcases mem_screenStep hstep with hAnd | ⟨_, hxc⟩
        · exact Or.inr hAnd
        · exact Or.inl (by simp [hxc, hL])
      · exact Or.inr hAnd
    · exact Or.inr hAnd

theorem mem_screenAll {x : Char} {s : Str} (h : x ∈ screenAll s) :
    x ∈ s ∨ x ∈ andStr :=
  mem_foldl_screenStep screenedChars s x h

theorem not_screened_of_mem_screenAll {x : Char} {s : Str}
    (h : x ∈ screenAll s) : x ∉ screenedChars := by
  intro hx
  rcases not_mem_foldl_screenStep screenedChars s x h with h' | h'
  · exact h' hx
  · have : ∀ y ∈ andStr, y ∉ screenedChars := by decide
    exact this x h' hx

theorem foldl_screenStep_id (L : List Char) :
    ∀ t : Str, (∀ c ∈ L, c ∉ t) → L.foldl screenStep t = t := by
  induction L with
  | nil => intro t _; rfl
  | cons c L ih =>
    intro t h
    have hct : c ∉ t := h c (List.mem_cons_self c L)
    have hstep : screenStep t c = t := by
      unfold screenStep
      by_cases hc : c = '&'
      · rw [if_pos hc]; exact replaceChar_of_not_mem hct
      · rw [if_neg hc]; exact replaceChar_of_not_mem hct
    rw [List.foldl_cons, hstep]
    exact ih t (fun d hd => h d (List.mem_cons_of_mem c hd))

theorem screenAll_of_no_screened {t : Str}
    (h : ∀ c ∈ screenedChars, c ∉ t) : screenAll t = t :=
  foldl_screenStep_id screenedChars t h

theorem toNat_ofNat_lowercase {n : Nat} (h1 : 97 ≤ n) (h2 : n ≤ 122) :
    (Char.ofNat n).toNat = n := by
  have hv : n.isValidChar := Or.inl (by omega)
  simp [Char.ofNat, hv, Char.ofNatAux, Char.toNat, UInt32.toNat]

theorem lowerChar_idem (c : Char) : lowerChar (lowerChar c) = lowerChar c := by
  unfold lowerChar
  by_cases h : 65 ≤ c.toNat ∧ c.toNat ≤ 90
  · rw [if_pos h]
    have ht : (Char.ofNat (c.toNat + 32)).toNat = c.toNat + 32 :=
      toNat_ofNat_lowercase (by omega) (by omega)
    rw [if_neg (by omega)]
  · rw [if_neg h, if_neg h]

theorem lowerChar_fix_of_mem_pyLower {c : Char} {s : Str}
    (h : c ∈ pyLower s) : lowerChar c = c := by
  obtain ⟨a, _, rfl⟩ := List.mem_map.mp h
  exact lowerChar_idem a

theorem map_eq_self_of_fix {f : Char → Char} {l : Str}
    (h : ∀ c ∈ l, f c = c) : l.map f = l := by
  induction l with
  | nil => rfl
  | cons a as ih =>
    rw [List.map_cons, h a (List.mem_cons_self a as),
      ih (fun c hc => h c (List.mem_cons_of_mem a hc))]

/-- Every character of a preprocessed string is a fixed point of the
lowercasing map. -/
theorem lowerChar_fix_of_mem_preprocess {c : Char} {s : Str}
    (h : c ∈ preprocess s) : lowerChar c = c := by
  rcases mem_screenAll (mem_preprocess s c h).2 with h' | h'
  · exact lowerChar_fix_of_mem_pyLower h'
  · revert h'
    have : ∀ y ∈ andStr, lowerChar y = y := by decide
    exact this c

/-- Claim C4: the normalizer is idempotent — every canonical form is a
fixed point of `preprocess`. -/
theorem claim_C4_idempotence (s : Str) :
    preprocess (preprocess s) = preprocess s := by
  have hlower : pyLower (preprocess s) = preprocess s :=
    map_eq_self_of_fix (fun c hc => lowerChar_fix_of_mem_preprocess hc)
  have hscreen : screenAll (preprocess s) = preprocess s :=
    screenAll_of_no_screened (fun c hcs hct =>
      not_screened_of_mem_screenAll (mem_preprocess s c hct).2 hcs)
  by_cases h0 : preprocess s = []
  · rw [h0]
    rfl
  · have hnws : ∀ c ∈ preprocess s, isPySpace c = false :=
      fun c hc => claim_C6_whitespace_freedom s c hc
    conv_lhs => rw [preprocess]
    rw [hlower, hscreen, splitWs_eq_single _ h0 hnws]
    simp [sortTokens, List.insertionSort]

/-! ## Order-insensitivity of the normalizer -/

theorem pyLower_append (a b : Str) :
    pyLower (a ++ b) = pyLower a ++ pyLower b :=
  List.map_append lowerChar a b

theorem replaceChar_append (c : Char) (r a b : Str) :
    replaceChar c r (a ++ b) = replaceChar c r a ++ replaceChar c r b :=
  List.flatMap_append a b _

theorem screenStep_append (a b : Str) (c : Char) :
    screenStep (a ++ b) c = screenStep a c ++ screenStep b c := by
  unfold screenStep
  by_cases hc : c = '&'
  · rw [if_pos hc, if_pos hc, if_pos hc, replaceChar_append]
  · rw [if_neg hc, if_neg hc, if_neg hc, replaceChar_append]

theorem foldl_screenStep_append (L : List Char) :
    ∀ a b : Str, L.foldl screenStep (a ++ b) =
      L.foldl screenStep a ++ L.foldl screenStep b := by
  induction L with
  | nil => intro a b; rfl
  | cons c L ih =>
    intro a b
    rw [List.foldl_cons, List.foldl_cons, List.foldl_cons,
      screenStep_append, ih]

theorem screenAll_pyLower_append (a b : Str) :
    screenAll (pyLower (a ++ b)) =
      screenAll (pyLower a) ++ screenAll (pyLower b) := by
  rw [pyLower_append]
  exact foldl_screenStep_append screenedChars _ _

theorem takeWhile_append_space (b : Str) :
    ∀ cs : Str, (cs ++ ' ' :: b).takeWhile (fun x => !isPySpace x) =
      cs.takeWhile (fun x => !isPySpace x) := by
  intro cs
  induction cs with
  | nil => simp [List.takeWhile_cons, isPySpace]
  | cons d ds ih =>
    by_cases hd : isPySpace d
    · simp [List.takeWhile_cons, hd]
    · simp [List.takeWhile_cons, hd, ih]

theorem dropWhile_append_space (b : Str) :
    ∀ cs : Str, (cs ++ ' ' :: b).dropWhile (fun x => !isPySpace x) =
      cs.dropWhile (fun x => !isPySpace x) ++ ' ' :: b := by
  intro cs
  induction cs with
  | nil => simp [List.dropWhile_cons, isPySpace]
  | cons d ds ih =>
    by_cases hd : isPySpace d
    · simp [List.dropWhile_cons, hd]
    · simp [List.dropWhile_cons, hd, ih]

theorem splitWs_append_space_aux (n : Nat) : ∀ a : Str, a.length ≤ n →
    ∀ b : Str, splitWs (a ++ ' ' :: b) = splitWs a ++ splitWs b := by
  induction n with
  | zero =>
    intro a ha b
    have : a = [] := List.length_eq_zero.mp (Nat.le_zero.mp ha)
    subst this
    rw [List.nil_append, splitWs_cons_ws ' ' b (by decide)]
    rfl
  | succ n ih =>
    intro a ha b
    cases a with
    | nil =>
      rw [List.nil_append, splitWs_cons_ws ' ' b (by decide)]
      rfl
    | cons c cs =>
      have hlen : cs.length ≤ n := by
        simpa [Nat.succ_le_succ_iff] using ha
      by_cases hc : isPySpace c
      · rw [List.cons_append, splitWs_cons_ws c _ hc, splitWs_cons_ws c cs hc]
        exact ih cs hlen b
      · have hc' : isPySpace c = false := by simpa using hc
        rw [List.cons_append, splitWs_cons_not_ws c _ hc',
          splitWs_cons_not_ws c cs hc', takeWhile_append_space,
          dropWhile_append_space]
        have hdlen : (cs.dropWhile (fun x => !isPySpace x)).length ≤ n :=
          le_trans ((List.dropWhile_sublist _).length_le) hlen
        rw [ih _ hdlen b, List.cons_append]

theorem splitWs_append_space (a b : Str) :
    splitWs (a ++ ' ' :: b) = splitWs a ++ splitWs b :=
  splitWs_append_space_aux a.length a le_rfl b

/-- `' '.join(words)`: the words of the claim, joined by single spaces. -/
def joinWords : List Str → Str
  | [] => []
  | [w] => w
  | w :: ws => w ++ ' ' :: joinWords ws

/-- The tokens of the canonicalized join are the concatenation of the
tokens of the canonicalized words. -/
theorem tokens_joinWords : ∀ ws : List Str,
    splitWs (screenAll (pyLower (joinWords ws))) =
      ws.flatMap (fun w => splitWs (screenAll (pyLower w))) := by
  intro ws
  match ws with
  | [] => rfl
  | [w] => simp [joinWords]
  | w :: v :: rest =>
    have hjoin : joinWords (w :: v :: rest) = w ++ ' ' :: joinWords (v :: rest) :=
      rfl
    have hsp : (' ' :: joinWords (v :: rest) : Str) =
        [' '] ++ joinWords (v :: rest) := rfl
    rw [hjoin, hsp, ← List.append_assoc, screenAll_pyLower_append,
      screenAll_pyLower_append]
    have hspace : screenAll (pyLower [' ']) = [' '] := by decide
    rw [hspace, List.append_assoc, List.singleton_append,
      splitWs_append_space, tokens_joinWords (v :: rest)]
    simp

/-- Sorting is canonical: permutation-equal token lists sort equally. -/
theorem sortTokens_eq_of_perm {l1 l2 : List Str} (h : l1.Perm l2) :
    sortTokens l1 = sortTokens l2 :=
  List.eq_of_perm_of_sorted
    (((List.perm_insertionSort _ l1).trans h).trans
      (List.perm_insertionSort _ l2).symm)
    (List.sorted_insertionSort _ l1)
    (List.sorted_insertionSort _ l2)

/-- Claim C7: the normalizer is insensitive to word order — two strings
made of the same multiset of whitespace-separated words in different
orders normalize to the same canonical form. -/
theorem claim_C7_order_insensitivity (ws1 ws2 : List Str)
    (h : ws1.Perm ws2) :
    preprocess (joinWords ws1) = preprocess (joinWords ws2) := by
  unfold preprocess
  rw [tokens_joinWords ws1, tokens_joinWords ws2,
    sortTokens_eq_of_perm
      (h.flatMap_right (fun w => splitWs (screenAll (pyLower w))))]

/-- Witness for C7 at the spec's example: `"the best of times"` and
`"of times the best"` are joins of permuted word lists, and the theorem
yields equal canonical forms. -/
theorem claim_C7_order_insensitivity_witness :
    preprocess (joinWords
        ["the".toList, "best".toList, "of".toList, "times".toList]) =
      preprocess (joinWords
        ["of".toList, "times".toList, "the".toList, "best".toList]) :=
  claim_C7_order_insensitivity _ _ (by decide)

/-! ## The query threshold and the miss fallback -/

/-- Claim C1: the distance threshold of `Fuzzy.query` is inclusive — a
top suggestion at distance exactly `max_edit_distance_dictionary` is
accepted and back-mapped through the index dictionary to the resolved
original string, while one whose distance exceeds the threshold is
rejected with the original query string and `False`. -/
theorem claim_C1_threshold_inclusive (st : FuzzyState) (q : Str) :
    (((st.lookupFn (preprocess q)).distance : Int) =
        st.max_edit_distance_dictionary →
      ∀ orig : Str,
        dictGet st.index_dictionary (st.lookupFn (preprocess q)).term =
          some orig →
        query st q = some (orig, true)) ∧
    (st.max_edit_distance_dictionary <
        ((st.lookupFn (preprocess q)).distance : Int) →
      query st q = some (q, false)) := by
  constructor
  · intro h orig horig
    unfold query
    rw [if_neg (by rw [h]; exact lt_irrefl _), horig]
  · intro h
    unfold query
    rw [if_pos h]

/-- A concrete `Fuzzy` state whose oracle reports a hit at distance
exactly equal to the threshold. -/
def stHit : FuzzyState :=
  { lookupFn := fun _ => ⟨['x'], 2⟩
  , index_dictionary := [(['x'], ['X', ' '].reverse)]
  , max_edit_distance_dictionary := 2 }

/-- A concrete `Fuzzy` state whose oracle reports a distance strictly
above the threshold. -/
def stMiss : FuzzyState :=
  { lookupFn := fun _ => ⟨['x'], 3⟩
  , index_dictionary := []
  , max_edit_distance_dictionary := 2 }

/-- Witness for C1: at the boundary distance the hit is accepted with
the resolved original; one past the boundary is rejected. -/
theorem claim_C1_threshold_inclusive_witness :
    query stHit ['q'] = some ([' ', 'X'], true) ∧
      query stMiss ['q'] = some (['q'], false) :=
  ⟨(claim_C1_threshold_inclusive stHit ['q']).1 (by decide) [' ', 'X']
      (by decide),
    (claim_C1_threshold_inclusive stMiss ['q']).2 (by decide)⟩

/-- Claim C2: on a miss, `Fuzzy.query` returns the original
un-normalized input with `found=False`, and `apply_query` then yields
the `null_return` sentinel when one is configured, otherwise the
original value unchanged. -/
theorem claim_C2_miss_fallback (st : FuzzyState) (v nr : Str)
    (h : st.max_edit_distance_dictionary <
      ((st.lookupFn (preprocess v)).distance : Int)) :
    query st v = some (v, false) ∧
    apply_query st none v = some v ∧
    apply_query st (some nr) v = some nr := by
  have hq : query st v = some (v, false) := by
    unfold query
    rw [if_pos h]
  refine ⟨hq, ?_, ?_⟩ <;> simp [apply_query, hq]

/-- Witness for C2 at a concrete missing value. -/
theorem claim_C2_miss_fallback_witness :
    query stMiss ['v'] = some (['v'], false) ∧
      apply_query stMiss none ['v'] = some ['v'] ∧
      apply_query stMiss (some ['N']) ['v'] = some ['N'] :=
  claim_C2_miss_fallback stMiss ['v'] ['N'] (by decide)

/-! ## First-seen wins in the reverse index -/

/-- Claim C3: when two right-side lines whose stripped originals differ
collapse to the same canonical form and are inserted in order `[A, B]`,
the reverse index keeps the first-seen original, resolving the canonical
form to it, and exactly one conflict notice is emitted; when the
colliding originals are identical, no notice is emitted. -/
theorem claim_C3_first_seen_wins (A B : Str) :
    (pyStrip A ≠ pyStrip B →
      preprocess (pyStrip A) = preprocess (pyStrip B) →
      create_index [A, B] = ([(preprocess (pyStrip A), pyStrip A)], 1) ∧
      dictGet (create_index [A, B]).1 (preprocess (pyStrip A)) =
        some (pyStrip A)) ∧
    (pyStrip A = pyStrip B →
      create_index [A, B] = ([(preprocess (pyStrip A), pyStrip A)], 0)) := by
  have h1 : createIndexStep ([], 0) A =
      ([(preprocess (pyStrip A), pyStrip A)], 0) := by
    unfold createIndexStep dictGet dictInsert
    rfl
  have hget : dictGet [(preprocess (pyStrip A), pyStrip A)]
      (preprocess (pyStrip A)) = some (pyStrip A) := by
    unfold dictGet
    rw [List.find?_cons_of_pos _ (by simp)]
    rfl
  constructor
  · intro hne hpp
    have h2 : create_index [A, B] =
        ([(preprocess (pyStrip A), pyStrip A)], 1) := by
      show List.foldl createIndexStep ([], 0) [A, B] = _
      rw [List.foldl_cons, h1, List.foldl_cons, List.foldl_nil]
      unfold createIndexStep
      dsimp only
      rw [← hpp, hget]
      dsimp only
      rw [if_pos hne]
    refine ⟨h2, ?_⟩
    rw [h2]
    exact hget
  · intro he
    show List.foldl createIndexStep ([], 0) [A, B] = _
    rw [List.foldl_cons, h1, List.foldl_cons, List.foldl_nil]
    unfold createIndexStep
    dsimp only
    rw [← he, hget]
    dsimp only
    rw [if_neg (fun hcon => hcon rfl)]
    unfold dictInsert
    rw [List.find?_cons_of_pos _ (by simp)]
    simp

/-- Witness for C3: `"b a"` and `"a  b"` differ as stripped originals
but share the canonical form `"ab"`; identical originals emit no
notice. -/
theorem claim_C3_first_seen_wins_witness :
    create_index ["b a".toList, "a  b".toList] =
        ([("ab".toList, "b a".toList)], 1) ∧
      dictGet (create_index ["b a".toList, "a  b".toList]).1 "ab".toList =
        some ("b a".toList) ∧
      create_index ["b a".toList, "b a".toList] =
        ([("ab".toList, "b a".toList)], 0) := by
  obtain ⟨he, hg⟩ :=
    (claim_C3_first_seen_wins ("b a".toList) ("a  b".toList)).1
      (by decide) (by decide)
  refine ⟨he, hg, ?_⟩
  exact (claim_C3_first_seen_wins ("b a".toList) ("b a".toList)).2 (by decide)

/-! ## Hits are stripped right-column values -/

/-- A concrete oracle for witnesses: the top suggestion is always the
preprocessed query itself at distance `0`. -/
def idOracle : List Str → Str → Suggestion := fun _ q => ⟨q, 0⟩

/-- A concrete left dataframe with one column `a`. -/
def ldf0 : DataFrame := ⟨[("a".toList, ["x".toList])]⟩

/-- A concrete right dataframe with columns `b` and `c`. -/
def rdf0 : DataFrame :=
  ⟨[("b".toList, ["x".toList]), ("c".toList, ["x".toList])]⟩

/-- Claim C9: the entry point computes all per-pair result columns
before writing any of them, so whenever any error is raised the left
dataframe is returned entirely unchanged. -/
theorem claim_C9_no_partial_writes (oracle : List Str → Str → Suggestion)
    (ldf rdf : DataFrame) (left_cols : List Str)
    (right_cols : Option (List Str)) (null_return : Option Str)
    (maxEdit : Int) (e : Err)
    (h : (get_fuzzy_columns oracle ldf rdf left_cols right_cols null_return
      maxEdit).2 = some e) :
    (get_fuzzy_columns oracle ldf rdf left_cols right_cols null_return
      maxEdit).1 = ldf := by
  unfold get_fuzzy_columns at h ⊢
  cases hv : validate ldf rdf left_cols right_cols maxEdit with
  | some e' => rfl
  | none =>
    cases hc : compute_cols oracle ldf rdf null_return maxEdit left_cols
        (right_cols.getD left_cols) with
    | error e' => rfl
    | ok cols =>
      rw [hv] at h
      simp [hc] at h

/-- Witness for C9: a call whose left column is absent errors and leaves
the left dataframe unchanged. -/
theorem claim_C9_no_partial_writes_witness :
    (get_fuzzy_columns idOracle ldf0 rdf0 ["z".toList] none none 2).1 =
      ldf0 :=
  claim_C9_no_partial_writes idOracle ldf0 rdf0 ["z".toList] none none 2
    (Err.lookupLeft ("z".toList)) (by decide)

/-- Counterexample to claim C5: a call with column lists of unequal
lengths (`left_cols` has one entry, `right_cols` two) is not reported as
a configuration error at all — the pipeline runs to completion with no
error raised, the extra right column being silently ignored. -/
theorem claim_C5_counterexample :
    (["a".toList] : List Str).length ≠
        (["b".toList, "c".toList] : List Str).length ∧
      (get_fuzzy_columns idOracle ldf0 rdf0 ["a".toList]
        (some ["b".toList, "c".toList]) none 2).2 = none := by
  constructor
  · decide
  · decide

/-- Claim C5 as amended: mismatched column-list lengths are not
detected eagerly.  The eager validation (membership and
`max_edit_distance` checks) passes with no constraint relating the two
lengths, and when `left_cols` is longer than `right_cols` an index
error arises only inside the per-pair processing loop, at the first
unpaired left column. -/
theorem claim_C5_amended_no_length_check :
    (∀ (ldf rdf : DataFrame) (lcols : List Str)
        (rcolsOpt : Option (List Str)) (maxEdit : Int),
      (∀ c ∈ lcols, (ldf.getCol c).isSome) →
      (∀ rc, rcolsOpt = some rc → ∀ c ∈ rc, (rdf.getCol c).isSome) →
      1 ≤ maxEdit →
      validate ldf rdf lcols rcolsOpt maxEdit = none) ∧
    (∀ (oracle : List Str → Str → Suggestion) (ldf rdf : DataFrame)
        (l : Str) (ls : List Str) (nr : Option Str) (me : Int),
      compute_cols oracle ldf rdf nr me (l :: ls) [] =
        .error .indexErr) := by
  constructor
  · intro ldf rdf lcols rcolsOpt maxEdit hl hr hm
    unfold validate
    have hfl : lcols.find? (fun c => (ldf.getCol c).isNone) = none := by
      rw [List.find?_eq_none]
      intro c hc
      have h2 := hl c hc
      cases hgc : ldf.getCol c with
      | none => rw [hgc] at h2; simp at h2
      | some v => simp
    rw [hfl]
    cases rcolsOpt with
    | none =>
      dsimp only
      rw [if_neg (by omega)]
    | some rc =>
      have hfr : rc.find? (fun c => (rdf.getCol c).isNone) = none := by
        rw [List.find?_eq_none]
        intro c hc
        have h2 := hr rc rfl c hc
        cases hgc : rdf.getCol c with
        | none => rw [hgc] at h2; simp at h2
        | some v => simp
      dsimp only
      rw [hfr]
      dsimp only
      rw [if_neg (by omega)]
  · intro oracle ldf rdf l ls nr me
    rfl

/-- Witness for the amended C5: validation passes on a concrete call
whose column lists have lengths 1 and 2. -/
theorem claim_C5_amended_no_length_check_witness :
    validate ldf0 rdf0 ["a".toList] (some ["b".toList, "c".toList]) 2 =
      none :=
  claim_C5_amended_no_length_check.1 ldf0 rdf0 ["a".toList]
    (some ["b".toList, "c".toList]) 2 (by decide)
    (fun rc hrc => by
      injection hrc with h
      subst h
      decide)
    (by decide)

/-- Counterexample to claim C8: through the entry point, a missing left
column raises a `LookupError` whose message names the column but does
not list the available columns of the table. -/
theorem claim_C8_counterexample :
    (get_fuzzy_columns idOracle ldf0 rdf0 ["z".toList] (some ["b".toList])
        none 2).2 = some (Err.lookupLeft ("z".toList)) ∧
      Err.availableCols (Err.lookupLeft ("z".toList)) = none := by
  constructor
  · decide
  · decide

/-- Claim C8 as amended: a requested column absent from its table makes
the pipeline fail with a lookup error naming the missing column; only
the inner check of `Fuzzy.get_fuzzy_column` additionally lists the
available columns, and the entry point's eager check — which carries no
such list — preempts it. -/
theorem claim_C8_amended_lookup_error (oracle : List Str → Str → Suggestion)
    (ldf rdf : DataFrame) (lcols : List Str)
    (rcolsOpt : Option (List Str)) (nr : Option Str) (me : Int) (c : Str)
    (hf : lcols.find? (fun x => (ldf.getCol x).isNone) = some c) :
    (get_fuzzy_columns oracle ldf rdf lcols rcolsOpt nr me =
        (ldf, some (.lookupLeft c)) ∧
      Err.namedCol (.lookupLeft c) = some c ∧
      Err.availableCols (.lookupLeft c) = none) ∧
    (∀ (st : FuzzyState) (df : DataFrame) (col : Str) (nr2 : Option Str),
      df.getCol col = none →
      get_fuzzy_column st df col nr2 = .error (.lookupInner col df.columns) ∧
      Err.availableCols (.lookupInner col df.columns) = some df.columns) := by
  constructor
  · refine ⟨?_, rfl, rfl⟩
    unfold get_fuzzy_columns validate
    rw [hf]
  · intro st df col nr2 hg
    refine ⟨?_, rfl⟩
    unfold get_fuzzy_column
    rw [hg]

/-- Witness for the amended C8 at a concrete call with a missing left
column. -/
theorem claim_C8_amended_lookup_error_witness :
    (get_fuzzy_columns idOracle ldf0 rdf0 ["z".toList] none none 2 =
        (ldf0, some (Err.lookupLeft ("z".toList))) ∧
      Err.namedCol (Err.lookupLeft ("z".toList)) = some ("z".toList) ∧
      Err.availableCols (Err.lookupLeft ("z".toList)) = none) ∧
    (∀ (st : FuzzyState) (df : DataFrame) (col : Str) (nr2 : Option Str),
      df.getCol col = none →
      get_fuzzy_column st df col nr2 = .error (.lookupInner col df.columns) ∧
      Err.availableCols (.lookupInner col df.columns) = some df.columns) :=
  claim_C8_amended_lookup_error idOracle ldf0 rdf0 ["z".toList] none none 2
    ("z".toList) (by decide)

end Fuzzypanda
